import Mathlib

/-!
# Verification of the text chunking / wrapping / rendering core

Shallow embedding of `video_creation/text_image_generator.py`.
Python strings are modelled as `List Char`; Python's `str.split()`
(split on whitespace runs, dropping empty pieces) is `pySplit`;
`' '.join(xs)` is `joinSp`.  PIL font-metric queries (`font.getbbox`,
`utils/fonts.getsize`/`getheight`) are external library calls and are
modelled as abstract measure functions supplied by the caller.
-/

namespace TextImageGen

/-- Python `str.split()`: split on maximal whitespace runs, no empty tokens.
Structural lookahead formulation so that concrete inputs evaluate in the
kernel. -/
def pySplit : List Char → List (List Char)
  | [] => []
  | [c] => if c.isWhitespace then [] else [[c]]
  | c :: c2 :: cs =>
    if c.isWhitespace then pySplit (c2 :: cs)
    else if c2.isWhitespace then [c] :: pySplit (c2 :: cs)
    else
      match pySplit (c2 :: cs) with
      | [] => [[c]]
      | w :: ws => (c :: w) :: ws

theorem pySplit_one (c : Char) :
    pySplit [c] = if c.isWhitespace then [] else [[c]] := rfl

theorem pySplit_cons₂ (c c2 : Char) (cs : List Char) :
    pySplit (c :: c2 :: cs) =
      if c.isWhitespace then pySplit (c2 :: cs)
      else if c2.isWhitespace then [c] :: pySplit (c2 :: cs)
      else
        match pySplit (c2 :: cs) with
        | [] => [[c]]
        | w :: ws => (c :: w) :: ws := rfl

/-- Leading whitespace is dropped by `str.split()`. -/
theorem pySplit_ws_cons (c : Char) (hc : c.isWhitespace) (l : List Char) :
    pySplit (c :: l) = pySplit l := by
  cases l with
  | nil => rw [pySplit_one, if_pos hc]; rfl
  | cons d ds => rw [pySplit_cons₂, if_pos hc]

/-- Python `' '.join(xs)` on a list of strings. -/
def joinSp : List (List Char) → List Char
  | [] => []
  | [w] => w
  | w :: ws => w ++ ' ' :: joinSp ws

/-- A word as produced by `str.split()`: non-empty, no whitespace. -/
def goodWord (w : List Char) : Prop := w ≠ [] ∧ ∀ c ∈ w, ¬ c.isWhitespace

/-- All members are `str.split()`-style words. -/
def goodWords (ws : List (List Char)) : Prop := ∀ w ∈ ws, goodWord w

/-- A word starting with a non-whitespace char splits to a non-empty list
whose head begins with that char. -/
theorem pySplit_cons_head (c : Char) (hc : ¬ c.isWhitespace) (l : List Char) :
    ∃ w ws, pySplit (c :: l) = (c :: w) :: ws := by
  induction l generalizing c with
  | nil => exact ⟨[], [], by simp [pySplit_one, hc]⟩
  | cons c2 cs ih =>
    by_cases h2 : c2.isWhitespace
    · exact ⟨[], pySplit (c2 :: cs), by rw [pySplit_cons₂, if_neg hc, if_pos h2]⟩
    · obtain ⟨w, ws, hw⟩ := ih c2 h2
      exact ⟨c2 :: w, ws, by rw [pySplit_cons₂, if_neg hc, if_neg h2, hw]⟩

theorem pySplit_good : ∀ l : List Char, goodWords (pySplit l) := by
  intro l
  induction l with
  | nil => intro w hw; simp [pySplit] at hw
  | cons c cs ih =>
    by_cases hc : c.isWhitespace
    · rw [pySplit_ws_cons c hc]; exact ih
    · cases cs with
      | nil =>
        intro w hw
        rw [pySplit_one, if_neg hc] at hw
        have hw' : w = [c] := List.mem_singleton.mp hw
        subst hw'
        refine ⟨by simp, ?_⟩
        intro x hx
        have hx' : x = c := List.mem_singleton.mp hx
        exact hx' ▸ hc
      | cons c2 cs' =>
        intro w hw
        by_cases h2 : c2.isWhitespace
        · rw [pySplit_cons₂, if_neg hc, if_pos h2] at hw
          rcases List.mem_cons.mp hw with hw' | hw'
          · subst hw'
            refine ⟨by simp, ?_⟩
            intro x hx
            have hx' : x = c := List.mem_singleton.mp hx
            exact hx' ▸ hc
          · exact ih w hw'
        · rw [pySplit_cons₂, if_neg hc, if_neg h2] at hw
          obtain ⟨v, vs, hv⟩ := pySplit_cons_head c2 h2 cs'
          rw [hv] at hw
          simp only at hw
          rcases List.mem_cons.mp hw with hw' | hw'
          · subst hw'
            have hmem := ih (c2 :: v) (by rw [hv]; exact List.mem_cons_self _ _)
            refine ⟨by simp, ?_⟩
            intro x hx
            rcases List.mem_cons.mp hx with hx' | hx'
            · exact hx' ▸ hc
            · exact hmem.2 x hx'
          · exact ih w (by rw [hv]; exact List.mem_cons_of_mem _ hw')

/-- Splitting at an explicit whitespace character is concatenation. -/
theorem pySplit_append_ws (sep : Char) (hsep : sep.isWhitespace) :
    ∀ a b : List Char, pySplit (a ++ sep :: b) = pySplit a ++ pySplit b := by
  intro a
  induction a with
  | nil => intro b; rw [List.nil_append, pySplit_ws_cons sep hsep]; rfl
  | cons x xs ih =>
    intro b
    by_cases hx : x.isWhitespace
    · rw [List.cons_append, pySplit_ws_cons x hx, pySplit_ws_cons x hx, ih b]
    · cases xs with
      | nil =>
        rw [List.cons_append, List.nil_append, pySplit_cons₂, if_neg hx,
          if_pos hsep, pySplit_ws_cons sep hsep, pySplit_one, if_neg hx]
        rfl
      | cons y ys =>
        have hform : (x :: y :: ys) ++ sep :: b = x :: ((y :: ys) ++ sep :: b) := rfl
        rw [hform]
        by_cases hy : y.isWhitespace
        · have hpre : (y :: ys) ++ sep :: b = y :: (ys ++ sep :: b) := rfl
          rw [hpre, pySplit_cons₂, if_neg hx, if_pos hy, ← hpre, ih b,
            pySplit_cons₂, if_neg hx, if_pos hy]
          rfl
        · have hpre : (y :: ys) ++ sep :: b = y :: (ys ++ sep :: b) := rfl
          obtain ⟨w, ws, hw⟩ := pySplit_cons_head y hy ys
          rw [hpre, pySplit_cons₂, if_neg hx, if_neg hy, ← hpre, ih b, hw,
            pySplit_cons₂, if_neg hx, if_neg hy, hw]
          rfl

/-- A single `str.split()`-style word splits to itself. -/
theorem pySplit_single (w : List Char) (hw : goodWord w) : pySplit w = [w] := by
  obtain ⟨hne, hchars⟩ := hw
  induction w with
  | nil => exact absurd rfl hne
  | cons c cs ih =>
    have hc : ¬ c.isWhitespace := hchars c (List.mem_cons_self c cs)
    cases cs with
    | nil => simp [pySplit_one, hc]
    | cons c2 cs' =>
      have hc2 : ¬ c2.isWhitespace := hchars c2 (by simp)
      have hrec : pySplit (c2 :: cs') = [c2 :: cs'] :=
        ih (by simp) (fun x hx => hchars x (List.mem_cons_of_mem c hx))
      rw [pySplit_cons₂, if_neg hc, if_neg hc2, hrec]

/-- `' '.join` then `split()` round-trips on a list of words. -/
theorem pySplit_joinSp : ∀ ws : List (List Char), goodWords ws →
    pySplit (joinSp ws) = ws := by
  intro ws
  induction ws with
  | nil => intro _; simp [joinSp, pySplit]
  | cons w ws' ih =>
    intro hgood
    cases ws' with
    | nil =>
      show pySplit w = [w]
      exact pySplit_single w (hgood w (by simp))
    | cons v vs =>
      have hw : goodWord w := hgood w (by simp)
      have hrest : goodWords (v :: vs) := by
        intro x hx; exact hgood x (List.mem_cons_of_mem w hx)
      show pySplit (w ++ ' ' :: joinSp (v :: vs)) = w :: v :: vs
      rw [pySplit_append_ws ' ' (by decide) w (joinSp (v :: vs)),
        pySplit_single w hw, ih hrest]
      rfl

theorem joinSp_ne_nil (ws : List (List Char)) (hne : ws ≠ []) (hgood : goodWords ws) :
    joinSp ws ≠ [] := by
  cases ws with
  | nil => exact absurd rfl hne
  | cons w ws' =>
    have hw : goodWord w := hgood w (by simp)
    cases ws' with
    | nil => exact hw.1
    | cons v vs =>
      show w ++ ' ' :: joinSp (v :: vs) ≠ []
      simp

/-!
## `wrap_text_to_fit` (text_image_generator.py, lines 558-582)

`font.getbbox` width measurement is abstracted as `f : List Char → Nat`
(`width = bbox[2] - bbox[0]`).
-/

/-- The greedy word loop of `wrap_text_to_fit`: first argument list is the
remaining words, second is `current_line`. -/
def wrapAux (f : List Char → Nat) (maxW : Nat) :
    List (List Char) → List (List Char) → List (List Char)
  | [], cur => if cur = [] then [] else [joinSp cur]
  | w :: ws, cur =>
    if f (joinSp (cur ++ [w])) ≤ maxW then wrapAux f maxW ws (cur ++ [w])
    else if cur = [] then w :: wrapAux f maxW ws []
    else joinSp cur :: wrapAux f maxW ws [w]

theorem wrapAux_nil (f : List Char → Nat) (maxW : Nat) (cur : List (List Char)) :
    wrapAux f maxW [] cur = if cur = [] then [] else [joinSp cur] := rfl

theorem wrapAux_cons (f : List Char → Nat) (maxW : Nat) (w : List Char)
    (ws cur : List (List Char)) :
    wrapAux f maxW (w :: ws) cur =
      if f (joinSp (cur ++ [w])) ≤ maxW then wrapAux f maxW ws (cur ++ [w])
      else if cur = [] then w :: wrapAux f maxW ws []
      else joinSp cur :: wrapAux f maxW ws [w] := rfl

/-- `wrap_text_to_fit(text, font, max_width)`: split text into words, greedily
fill lines by measured width; a word whose own width exceeds `max_width` is
forced whole ("Single word too long, force it"). -/
def wrap_text_to_fit (text : List Char) (f : List Char → Nat) (maxW : Nat) :
    List (List Char) :=
  wrapAux f maxW (pySplit text) []

theorem goodWords_append {a b : List (List Char)} (ha : goodWords a)
    (hb : goodWords b) : goodWords (a ++ b) := by
  intro w hw
  rcases List.mem_append.mp hw with h | h
  · exact ha w h
  · exact hb w h

theorem wrapAux_coverage (f : List Char → Nat) (maxW : Nat) :
    ∀ ws cur, goodWords ws → goodWords cur →
      (wrapAux f maxW ws cur).flatMap pySplit = cur ++ ws := by
  intro ws
  induction ws with
  | nil =>
    intro cur _ hcur
    rw [wrapAux_nil]
    by_cases h : cur = []
    · rw [if_pos h, h]; rfl
    · rw [if_neg h]
      show pySplit (joinSp cur) ++ [].flatMap pySplit = cur ++ []
      rw [pySplit_joinSp cur hcur]
      simp
  | cons w ws ih =>
    intro cur hws hcur
    have hw : goodWord w := hws w (by simp)
    have hws' : goodWords ws := fun x hx => hws x (List.mem_cons_of_mem w hx)
    rw [wrapAux_cons]
    by_cases h1 : f (joinSp (cur ++ [w])) ≤ maxW
    · rw [if_pos h1,
        ih (cur ++ [w]) hws' (goodWords_append hcur (by
          intro x hx
          have hx' : x = w := List.mem_singleton.mp hx
          exact hx' ▸ hw))]
      simp
    · rw [if_neg h1]
      by_cases h2 : cur = []
      · rw [if_pos h2, h2]
        show pySplit w ++ (wrapAux f maxW ws []).flatMap pySplit = [] ++ w :: ws
        rw [pySplit_single w hw, ih [] hws' (by intro x hx; simp at hx)]
        rfl
      · rw [if_neg h2]
        show pySplit (joinSp cur) ++ (wrapAux f maxW ws [w]).flatMap pySplit =
          cur ++ w :: ws
        rw [pySplit_joinSp cur hcur, ih [w] hws' (by
          intro x hx
          have hx' : x = w := List.mem_singleton.mp hx
          exact hx' ▸ hw)]
        simp

/-- C7: concatenating the whitespace-tokenized words of all lines produced by
`wrap_text_to_fit`, in order, reproduces the whitespace-tokenized word sequence
of the input (the code inserts no hyphen markers, so nothing is ignored). -/
theorem wrap_text_to_fit_coverage (text : List Char) (f : List Char → Nat)
    (maxW : Nat) :
    (wrap_text_to_fit text f maxW).flatMap pySplit = pySplit text := by
  unfold wrap_text_to_fit
  rw [wrapAux_coverage f maxW (pySplit text) [] (pySplit_good text)
    (by intro x hx; simp at hx)]
  rfl

theorem wrapAux_fit (f : List Char → Nat) (maxW : Nat) (W : List (List Char))
    (hW : goodWords W) :
    ∀ ws cur, (∀ x ∈ ws, x ∈ W) → (∀ x ∈ cur, x ∈ W) →
      (cur = [] ∨ f (joinSp cur) ≤ maxW ∨ ∃ x ∈ W, cur = [x]) →
      ∀ l ∈ wrapAux f maxW ws cur, l ≠ [] ∧ (f l ≤ maxW ∨ l ∈ W) := by
  intro ws
  induction ws with
  | nil =>
    intro cur _ hcurW hinv l hl
    rw [wrapAux_nil] at hl
    by_cases h : cur = []
    · rw [if_pos h] at hl; simp at hl
    · rw [if_neg h] at hl
      have hl' : l = joinSp cur := List.mem_singleton.mp hl
      subst hl'
      have hgood : goodWords cur := fun x hx => hW x (hcurW x hx)
      refine ⟨joinSp_ne_nil cur h hgood, ?_⟩
      rcases hinv with h0 | hfit | ⟨x, hxW, hx⟩
      · exact absurd h0 h
      · exact Or.inl hfit
      · subst hx
        exact Or.inr (by simpa [joinSp] using hxW)
  | cons w ws ih =>
    intro cur hwsW hcurW hinv l hl
    have hwW : w ∈ W := hwsW w (by simp)
    have hws' : ∀ x ∈ ws, x ∈ W := fun x hx => hwsW x (List.mem_cons_of_mem w hx)
    rw [wrapAux_cons] at hl
    by_cases h1 : f (joinSp (cur ++ [w])) ≤ maxW
    · rw [if_pos h1] at hl
      refine ih (cur ++ [w]) hws' ?_ (Or.inr (Or.inl h1)) l hl
      intro x hx
      rcases List.mem_append.mp hx with h | h
      · exact hcurW x h
      · exact (List.mem_singleton.mp h) ▸ hwW
    · rw [if_neg h1] at hl
      by_cases h2 : cur = []
      · rw [if_pos h2] at hl
        rcases List.mem_cons.mp hl with hl' | hl'
        · subst hl'
          exact ⟨(hW l hwW).1, Or.inr hwW⟩
        · exact ih [] hws' (by intro x hx; simp at hx) (Or.inl rfl) l hl'
      · rw [if_neg h2] at hl
        rcases List.mem_cons.mp hl with hl' | hl'
        · subst hl'
          have hgood : goodWords cur := fun x hx => hW x (hcurW x hx)
          refine ⟨joinSp_ne_nil cur h2 hgood, ?_⟩
          rcases hinv with h0 | hfit | ⟨x, hxW, hx⟩
          · exact absurd h0 h2
          · exact Or.inl hfit
          · subst hx
            exact Or.inr (by simpa [joinSp] using hxW)
        · refine ih [w] hws' ?_ (Or.inr (Or.inr ⟨w, hwW, rfl⟩)) l hl'
          intro x hx
          exact (List.mem_singleton.mp hx) ▸ hwW

/-- C3 amended: every line produced by `wrap_text_to_fit` is non-empty, and
each line either measures at most `max_width` or is a single forced
(possibly overflowing) word of the input; the code produces no hyphenated
pieces. -/
theorem wrap_text_to_fit_fit (text : List Char) (f : List Char → Nat)
    (maxW : Nat) :
    ∀ l ∈ wrap_text_to_fit text f maxW,
      l ≠ [] ∧ (f l ≤ maxW ∨ l ∈ pySplit text) := by
  intro l hl
  exact wrapAux_fit f maxW (pySplit text) (pySplit_good text) (pySplit text) []
    (fun x hx => hx) (by intro x hx; simp at hx) (Or.inl rfl) l hl

/-- Witness for C3's amended theorem at a concrete input. -/
theorem wrap_text_to_fit_fit_witness :
    "a b".data ≠ [] ∧
      (List.length "a b".data ≤ 5 ∨ "a b".data ∈ pySplit "a b".data) :=
  wrap_text_to_fit_fit "a b".data List.length 5 "a b".data (by decide)

/-- C3 counterexample: with the character-count measure and `max_width = 5`,
wrapping an 8-character single word produces a line of measured width 8 > 5
that contains no soft hyphen (U+00AD), i.e. it is not a hyphenated fallback
piece, refuting the claimed width bound. -/
theorem wrap_text_to_fit_fit_cex :
    wrap_text_to_fit "abcdefgh".data List.length 5 = ["abcdefgh".data] ∧
    ¬ List.length "abcdefgh".data ≤ 5 ∧
    Char.ofNat 173 ∉ "abcdefgh".data := by decide

/-- C1 amended: `wrap_text_to_fit` never splits a token: when the input
tokenizes to a single word, the result is exactly that word as one line,
whatever its measured width — no character walk, no soft hyphens. -/
theorem wrap_text_to_fit_single_token (text : List Char) (f : List Char → Nat)
    (maxW : Nat) (t : List Char) (h : pySplit text = [t]) :
    wrap_text_to_fit text f maxW = [t] := by
  unfold wrap_text_to_fit
  rw [h, wrapAux_cons]
  by_cases hf : f (joinSp ([] ++ [t])) ≤ maxW
  · rw [if_pos hf, wrapAux_nil, if_neg (by simp)]
    rfl
  · rw [if_neg hf, if_pos rfl, wrapAux_nil, if_pos rfl]

/-- Witness for C1's amended theorem: the long word of Scenario B comes back
as one single unhyphenated line even at `max_px = 5`. -/
theorem wrap_text_to_fit_single_token_witness :
    wrap_text_to_fit "supercalifragilisticexpialidocious".data List.length 5 =
      ["supercalifragilisticexpialidocious".data] :=
  wrap_text_to_fit_single_token "supercalifragilisticexpialidocious".data
    List.length 5 "supercalifragilisticexpialidocious".data (by decide)

/-- C1 counterexample: wrapping `"supercalifragilisticexpialidocious"` at
`max_px = 5` (character-count measure: width 34 > 5) yields exactly one line,
not the claimed ≥ 2 soft-hyphenated pieces, and no soft hyphen (U+00AD)
appears anywhere in the output. -/
theorem wrap_text_to_fit_no_hyphenation_cex :
    5 < List.length "supercalifragilisticexpialidocious".data ∧
    (wrap_text_to_fit "supercalifragilisticexpialidocious".data
      List.length 5).length = 1 ∧
    ¬ 2 ≤ (wrap_text_to_fit "supercalifragilisticexpialidocious".data
      List.length 5).length ∧
    Char.ofNat 173 ∉ (wrap_text_to_fit "supercalifragilisticexpialidocious".data
      List.length 5).head! := by decide

/-!
## `split_into_two_lines` (lines 640-661) and
## `create_dynamic_word_chunks` (lines 609-638)
-/

/-- The `break_words` list preferred as line-break points. -/
def breakWords : List (List Char) :=
  ["and", "or", "but", "so", "then", "when", "where", "how", "why"].map
    String.data

/-- Python `str.lower()` per character. -/
def lowerStr (w : List Char) : List Char := w.map Char.toLower

/-- The `for i in range(lo, hi)` search for a break word: `n` is the number of
indices left to try, `i` the current index, `dflt` the `mid_point` default. -/
def findBreakAux (words : List (List Char)) : Nat → Nat → Nat → Nat
  | 0, _, dflt => dflt
  | n + 1, i, dflt =>
    if i < words.length ∧ lowerStr (words.getD i []) ∈ breakWords then i
    else findBreakAux words n (i + 1) dflt

theorem findBreakAux_succ (words : List (List Char)) (n i dflt : Nat) :
    findBreakAux words (n + 1) i dflt =
      if i < words.length ∧ lowerStr (words.getD i []) ∈ breakWords then i
      else findBreakAux words n (i + 1) dflt := rfl

theorem findBreakAux_bounds (words : List (List Char)) :
    ∀ n i dflt, findBreakAux words n i dflt = dflt ∨
      (i ≤ findBreakAux words n i dflt ∧ findBreakAux words n i dflt < i + n) := by
  intro n
  induction n with
  | zero => intro i dflt; exact Or.inl rfl
  | succ n ih =>
    intro i dflt
    rw [findBreakAux_succ]
    by_cases h : i < words.length ∧ lowerStr (words.getD i []) ∈ breakWords
    · rw [if_pos h]
      exact Or.inr ⟨Nat.le_refl i, by omega⟩
    · rw [if_neg h]
      rcases ih (i + 1) dflt with h' | ⟨h1, h2⟩
      · exact Or.inl h'
      · exact Or.inr ⟨by omega, by omega⟩

/-- `split_into_two_lines(text)`: texts of at most 3 words stay on one line;
otherwise split near the middle, preferring a break word within two positions
of the midpoint, into `f"{line1}\n{line2}"`. -/
def split_into_two_lines (text : List Char) : List Char :=
  let words := pySplit text
  if words.length ≤ 3 then text
  else
    let mid := words.length / 2
    let lo := max 1 (mid - 2)
    let hi := min (words.length - 1) (mid + 2)
    let best := findBreakAux words (hi - lo) lo mid
    joinSp (words.take best) ++ '\n' :: joinSp (words.drop best)

theorem split_into_two_lines_le3 (t : List Char) (h : (pySplit t).length ≤ 3) :
    split_into_two_lines t = t := by
  unfold split_into_two_lines
  rw [if_pos h]

theorem split_into_two_lines_gt3 (t : List Char) (h : 3 < (pySplit t).length) :
    ∃ b, 1 ≤ b ∧ b < (pySplit t).length ∧
      split_into_two_lines t =
        joinSp ((pySplit t).take b) ++ '\n' :: joinSp ((pySplit t).drop b) := by
  unfold split_into_two_lines
  rw [if_neg (by omega)]
  refine ⟨findBreakAux (pySplit t) (min ((pySplit t).length - 1)
    ((pySplit t).length / 2 + 2) - max 1 ((pySplit t).length / 2 - 2))
    (max 1 ((pySplit t).length / 2 - 2)) ((pySplit t).length / 2), ?_, ?_, rfl⟩
  · rcases findBreakAux_bounds (pySplit t) _ _ ((pySplit t).length / 2) with
      h' | ⟨h1, _⟩
    · rw [h']; omega
    · omega
  · rcases findBreakAux_bounds (pySplit t) _ _ ((pySplit t).length / 2) with
      h' | ⟨_, h2⟩
    · rw [h']; omega
    · omega

theorem goodWords_take (ws : List (List Char)) (n : Nat) (h : goodWords ws) :
    goodWords (ws.take n) :=
  fun w hw => h w (List.mem_of_mem_take hw)

theorem goodWords_drop (ws : List (List Char)) (n : Nat) (h : goodWords ws) :
    goodWords (ws.drop n) :=
  fun w hw => h w (List.mem_of_mem_drop hw)

/-- Tokenizing a two-line split recovers the original words. -/
theorem pySplit_s2l (ws : List (List Char)) (h : goodWords ws) :
    pySplit (split_into_two_lines (joinSp ws)) = ws := by
  have hpj : pySplit (joinSp ws) = ws := pySplit_joinSp ws h
  by_cases hlen : ws.length ≤ 3
  · rw [split_into_two_lines_le3 _ (by rw [hpj]; exact hlen), hpj]
  · obtain ⟨b, _, _, heq⟩ :=
      split_into_two_lines_gt3 (joinSp ws) (by rw [hpj]; omega)
    rw [heq, hpj, pySplit_append_ws '\n' (by decide),
      pySplit_joinSp _ (goodWords_take ws b h),
      pySplit_joinSp _ (goodWords_drop ws b h), List.take_append_drop]

/-- Number of newline characters in a string. -/
def countNl (l : List Char) : Nat := l.countP (fun c => c == '\n')

theorem countNl_append (a b : List Char) :
    countNl (a ++ b) = countNl a + countNl b := List.countP_append _ _ _

theorem countNl_good (w : List Char) (hw : goodWord w) : countNl w = 0 := by
  refine List.countP_eq_zero.mpr ?_
  intro c hc
  have := hw.2 c hc
  simp only [beq_iff_eq]
  intro habs
  exact this (habs ▸ (by decide : ('\n').isWhitespace))

theorem countNl_joinSp (ws : List (List Char)) (h : goodWords ws) :
    countNl (joinSp ws) = 0 := by
  induction ws with
  | nil => rfl
  | cons w ws' ih =>
    have hw : goodWord w := h w (by simp)
    cases ws' with
    | nil => exact countNl_good w hw
    | cons v vs =>
      show countNl (w ++ ' ' :: joinSp (v :: vs)) = 0
      rw [countNl_append, countNl_good w hw]
      show 0 + List.countP _ (' ' :: joinSp (v :: vs)) = 0
      rw [List.countP_cons]
      have hrest : countNl (joinSp (v :: vs)) = 0 :=
        ih (fun x hx => h x (List.mem_cons_of_mem w hx))
      simp only [countNl] at hrest
      simp [hrest]

theorem countNl_s2l_gt3 (t : List Char) (h : 3 < (pySplit t).length) :
    countNl (split_into_two_lines t) = 1 := by
  obtain ⟨b, _, _, heq⟩ := split_into_two_lines_gt3 t h
  rw [heq, countNl_append,
    countNl_joinSp _ (goodWords_take _ b (pySplit_good t))]
  show 0 + List.countP _ ('\n' :: _) = 1
  rw [List.countP_cons]
  have hrest : countNl (joinSp ((pySplit t).drop b)) = 0 :=
    countNl_joinSp _ (goodWords_drop _ b (pySplit_good t))
  simp only [countNl] at hrest
  simp [hrest]

/-- The `while i < len(words)` loop of `create_dynamic_word_chunks`, with an
explicit fuel bound (the Python loop advances `i` by `chunk_size` or breaks;
`(pySplit text).length + 2` steps always suffice, see the lemmas below). -/
def cdwcAux (wpc : Nat) : Nat → List (List Char) → List (List Char) →
    List (List Char)
  | 0, acc, _ => acc
  | _ + 1, acc, [] => acc
  | fuel + 1, acc, w :: ws =>
    let size := min wpc (w :: ws).length
    if h : size < 3 ∧ acc ≠ [] then
      acc.dropLast ++ [acc.getLast h.2 ++ ' ' :: joinSp (w :: ws)]
    else
      cdwcAux wpc fuel
        (acc ++ [split_into_two_lines (joinSp ((w :: ws).take size))])
        ((w :: ws).drop size)

theorem cdwcAux_ws_nil (wpc : Nat) :
    ∀ fuel acc, cdwcAux wpc fuel acc [] = acc := by
  intro fuel acc
  cases fuel <;> rfl

theorem cdwcAux_cons (wpc fuel : Nat) (acc : List (List Char)) (w : List Char)
    (ws : List (List Char)) :
    cdwcAux wpc (fuel + 1) acc (w :: ws) =
      if h : min wpc (w :: ws).length < 3 ∧ acc ≠ [] then
        acc.dropLast ++ [acc.getLast h.2 ++ ' ' :: joinSp (w :: ws)]
      else
        cdwcAux wpc fuel
          (acc ++ [split_into_two_lines
            (joinSp ((w :: ws).take (min wpc (w :: ws).length)))])
          ((w :: ws).drop (min wpc (w :: ws).length)) := rfl

/-- `create_dynamic_word_chunks(text, words_per_chunk=7)`: greedy chunks of
`words_per_chunk` words, each formatted by `split_into_two_lines`; a remainder
of fewer than 3 words is appended to the previous chunk with a space. -/
def create_dynamic_word_chunks (text : List Char) (wpc : Nat) :
    List (List Char) :=
  cdwcAux wpc ((pySplit text).length + 2) [] (pySplit text)

theorem cdwcAux_coverage (wpc : Nat) :
    ∀ fuel acc ws, goodWords ws →
      ws.length + 1 + (if acc = [] then 1 else 0) ≤ fuel →
      (cdwcAux wpc fuel acc ws).flatMap pySplit = acc.flatMap pySplit ++ ws := by
  intro fuel
  induction fuel with
  | zero =>
    intro acc ws _ hle
    by_cases hacc : acc = [] <;> simp [hacc] at hle
  | succ fuel ih =>
    intro acc ws hgood hle
    cases ws with
    | nil => rw [cdwcAux_ws_nil]; simp
    | cons w ws' =>
      rw [cdwcAux_cons]
      by_cases hcond : min wpc (w :: ws').length < 3 ∧ acc ≠ []
      · rw [dif_pos hcond]
        have hacc : acc.dropLast ++ [acc.getLast hcond.2] = acc :=
          List.dropLast_append_getLast hcond.2
        conv_rhs => rw [← hacc]
        rw [List.flatMap_append, List.flatMap_append]
        simp only [List.flatMap_cons, List.flatMap_nil, List.append_nil]
        rw [pySplit_append_ws ' ' (by decide), pySplit_joinSp _ hgood,
          List.append_assoc]
      · rw [dif_neg hcond]
        rw [ih _ _ (goodWords_drop _ _ hgood) ?hfuel]
        · rw [List.flatMap_append]
          simp only [List.flatMap_cons, List.flatMap_nil, List.append_nil]
          rw [pySplit_s2l _ (goodWords_take _ _ hgood), List.append_assoc,
            List.take_append_drop]
        case hfuel =>
          rw [List.length_drop,
            if_neg (by simp : ¬ (acc ++ [split_into_two_lines
              (joinSp ((w :: ws').take (min wpc (w :: ws').length)))]) = [])]
          by_cases hacc : acc = []
          · rw [if_pos hacc] at hle
            omega
          · rw [if_neg hacc] at hle
            have hsz : ¬ min wpc (w :: ws').length < 3 := fun hs => hcond ⟨hs, hacc⟩
            omega

/-- C6: for every input text and every `words_per_chunk`, concatenating the
whitespace-tokenized words of all chunks returned by
`create_dynamic_word_chunks`, in order, reproduces the input's
whitespace-tokenized word sequence exactly. -/
theorem create_dynamic_word_chunks_coverage (text : List Char) (wpc : Nat) :
    (create_dynamic_word_chunks text wpc).flatMap pySplit = pySplit text := by
  unfold create_dynamic_word_chunks
  rw [cdwcAux_coverage wpc _ [] (pySplit text) (pySplit_good text) (by simp)]
  rfl

theorem cdwcAux_bound (wpc : Nat) (hwpc : 3 ≤ wpc) :
    ∀ fuel acc ws, goodWords ws →
      (∀ c ∈ acc, (pySplit c).length = wpc) →
      ws.length + 1 + (if acc = [] then 1 else 0) ≤ fuel →
      (∀ c ∈ (cdwcAux wpc fuel acc ws).dropLast, (pySplit c).length = wpc) ∧
      (∀ c, (cdwcAux wpc fuel acc ws).getLast? = some c →
        1 ≤ (pySplit c).length ∧ (pySplit c).length ≤ wpc + 2) := by
  intro fuel
  induction fuel with
  | zero =>
    intro acc ws _ _ hle
    by_cases hacc : acc = [] <;> simp [hacc] at hle
  | succ fuel ih =>
    intro acc ws hgood hacc hle
    cases ws with
    | nil =>
      rw [cdwcAux_ws_nil]
      refine ⟨fun c hc => hacc c ((List.dropLast_sublist acc).subset hc), ?_⟩
      intro c hc
      obtain ⟨hne, hceq⟩ := List.mem_getLast?_eq_getLast
        (show c ∈ acc.getLast? from Option.mem_def.mpr hc)
      have hmem : c ∈ acc := hceq ▸ List.getLast_mem hne
      have := hacc c hmem
      omega
    | cons w ws' =>
      rw [cdwcAux_cons]
      by_cases hcond : min wpc (w :: ws').length < 3 ∧ acc ≠ []
      · rw [dif_pos hcond]
        constructor
        · rw [List.dropLast_concat]
          exact fun c hc => hacc c ((List.dropLast_sublist acc).subset hc)
        · intro c hc
          rw [List.getLast?_concat] at hc
          have hc' := Option.some_injective _ hc
          subst hc'
          rw [pySplit_append_ws ' ' (by decide), pySplit_joinSp _ hgood,
            List.length_append]
          have hlast : (pySplit (acc.getLast hcond.2)).length = wpc :=
            hacc _ (List.getLast_mem hcond.2)
          have hlen : (w :: ws').length < 3 := by
            have := hcond.1
            omega
          have : 1 ≤ (w :: ws').length := by simp
          omega
      · rw [dif_neg hcond]
        by_cases hfit : (w :: ws').length ≤ wpc
        · -- final chunk: it takes everything and the loop then stops
          have hsz : min wpc (w :: ws').length = (w :: ws').length := by omega
          rw [hsz, List.drop_length, cdwcAux_ws_nil]
          have hchunk : (pySplit (split_into_two_lines
              (joinSp ((w :: ws').take (w :: ws').length)))).length =
              (w :: ws').length := by
            rw [List.take_length, pySplit_s2l _ hgood]
          constructor
          · rw [List.dropLast_concat]
            exact fun c hc => hacc c hc
          · intro c hc
            rw [List.getLast?_concat] at hc
            have hc' := Option.some_injective _ hc
            subst hc'
            have : 1 ≤ (w :: ws').length := by simp
            omega
        · -- full chunk of wpc words, recurse
          have hsz : min wpc (w :: ws').length = wpc := by omega
          rw [hsz]
          refine ih _ _ (goodWords_drop _ _ hgood) ?_ ?_
          · intro c hc
            rcases List.mem_append.mp hc with h | h
            · exact hacc c h
            · have hc' : c = split_into_two_lines
                  (joinSp ((w :: ws').take wpc)) := List.mem_singleton.mp h
              subst hc'
              rw [pySplit_s2l _ (goodWords_take _ _ hgood), List.length_take]
              omega
          · rw [List.length_drop,
              if_neg (by simp : ¬ (acc ++ [split_into_two_lines
                (joinSp ((w :: ws').take wpc))]) = [])]
            by_cases haccnil : acc = []
            · rw [if_pos haccnil] at hle
              omega
            · rw [if_neg haccnil] at hle
              omega

/-- C2 amended: for `words_per_chunk ≥ 3`, every chunk except the last
contains exactly `words_per_chunk` whitespace-tokenized words, and the last
chunk's word count lies in `[1, words_per_chunk + 2]` (a trailing remainder of
fewer than 3 words is merged into the preceding chunk instead of being
emitted on its own). -/
theorem create_dynamic_word_chunks_bound (text : List Char) (wpc : Nat)
    (hwpc : 3 ≤ wpc) :
    (∀ c ∈ (create_dynamic_word_chunks text wpc).dropLast,
      (pySplit c).length = wpc) ∧
    (∀ c, (create_dynamic_word_chunks text wpc).getLast? = some c →
      1 ≤ (pySplit c).length ∧ (pySplit c).length ≤ wpc + 2) :=
  cdwcAux_bound wpc hwpc _ [] (pySplit text) (pySplit_good text)
    (by intro c hc; simp at hc) (by simp)

/-- Witness for C2's amended theorem: `"a b c d e"` at `words_per_chunk = 3`
produces the single merged chunk `"a b c d e"` whose word count 5 lies in
`[1, 3 + 2]`. -/
theorem create_dynamic_word_chunks_bound_witness :
    1 ≤ (pySplit "a b c d e".data).length ∧
      (pySplit "a b c d e".data).length ≤ 3 + 2 :=
  (create_dynamic_word_chunks_bound "a b c d e".data 3 (by decide)).2
    "a b c d e".data (by decide)

/-- C2 counterexample: `create_dynamic_word_chunks("a b c d e", 2)` returns
the single chunk `"a b c d e"` (the 3 remaining words are merged back), not
the claimed `["a b", "c d", "e"]`, and the last chunk's word count 5 exceeds
`max_words = 2`. -/
theorem create_dynamic_word_chunks_scenarioA_cex :
    create_dynamic_word_chunks "a b c d e".data 2 = ["a b c d e".data] ∧
    create_dynamic_word_chunks "a b c d e".data 2 ≠
      ["a b".data, "c d".data, "e".data] ∧
    (pySplit "a b c d e".data).length = 5 ∧ ¬ (5 : Nat) ≤ 2 := by decide

theorem cdwcAux_newline (wpc : Nat) :
    ∀ fuel acc ws, goodWords ws →
      (∀ c ∈ acc, countNl c ≤ 1) →
      ws.length + 1 + (if acc = [] then 1 else 0) ≤ fuel →
      ∀ c ∈ cdwcAux wpc fuel acc ws, countNl c ≤ 1 := by
  intro fuel
  induction fuel with
  | zero =>
    intro acc ws _ _ hle
    by_cases hacc : acc = [] <;> simp [hacc] at hle
  | succ fuel ih =>
    intro acc ws hgood hacc hle
    cases ws with
    | nil => rw [cdwcAux_ws_nil]; exact hacc
    | cons w ws' =>
      rw [cdwcAux_cons]
      by_cases hcond : min wpc (w :: ws').length < 3 ∧ acc ≠ []
      · rw [dif_pos hcond]
        intro c hc
        rcases List.mem_append.mp hc with h | h
        · exact hacc c ((List.dropLast_sublist acc).subset h)
        · have hc' : c = acc.getLast hcond.2 ++ ' ' :: joinSp (w :: ws') :=
            List.mem_singleton.mp h
          subst hc'
          rw [countNl_append]
          have h1 : countNl (acc.getLast hcond.2) ≤ 1 :=
            hacc _ (List.getLast_mem hcond.2)
          have h2 : countNl (' ' :: joinSp (w :: ws')) = 0 := by
            show List.countP _ (' ' :: joinSp (w :: ws')) = 0
            rw [List.countP_cons]
            have := countNl_joinSp _ hgood
            simp only [countNl] at this
            simp [this]
          omega
      · rw [dif_neg hcond]
        refine ih _ _ (goodWords_drop _ _ hgood) ?_ ?_
        · intro c hc
          rcases List.mem_append.mp hc with h | h
          · exact hacc c h
          · have hc' : c = split_into_two_lines
                (joinSp ((w :: ws').take (min wpc (w :: ws').length))) :=
              List.mem_singleton.mp h
            subst hc'
            set tk := (w :: ws').take (min wpc (w :: ws').length) with htk
            have htok : pySplit (joinSp tk) = tk :=
              pySplit_joinSp _ (goodWords_take _ _ hgood)
            by_cases h3 : (pySplit (joinSp tk)).length ≤ 3
            · rw [split_into_two_lines_le3 _ h3,
                countNl_joinSp _ (goodWords_take _ _ hgood)]
              omega
            · rw [countNl_s2l_gt3 _ (by omega)]
        · rw [List.length_drop,
            if_neg (by simp : ¬ (acc ++ [split_into_two_lines
              (joinSp ((w :: ws').take (min wpc (w :: ws').length)))]) = [])]
          by_cases haccnil : acc = []
          · rw [if_pos haccnil] at hle
            omega
          · rw [if_neg haccnil] at hle
            have hsz : ¬ min wpc (w :: ws').length < 3 :=
              fun hs => hcond ⟨hs, haccnil⟩
            omega

/-- C10: every chunk returned by `create_dynamic_word_chunks` contains at most
one newline character; `split_into_two_lines` renders a text of more than 3
words as exactly two lines joined by a single newline, and leaves a text of 3
or fewer words unchanged (one line, no newline added); remainder merging
appends with a space and so never introduces an extra newline. -/
theorem create_dynamic_word_chunks_newline :
    (∀ text wpc c, c ∈ create_dynamic_word_chunks text wpc → countNl c ≤ 1) ∧
    (∀ t, 3 < (pySplit t).length → countNl (split_into_two_lines t) = 1) ∧
    (∀ t, (pySplit t).length ≤ 3 → split_into_two_lines t = t) := by
  refine ⟨?_, countNl_s2l_gt3, split_into_two_lines_le3⟩
  intro text wpc c hc
  exact cdwcAux_newline wpc _ [] (pySplit text) (pySplit_good text)
    (by intro x hx; simp at hx) (by simp) c hc

/-- Witness for C10 at concrete inputs: the four-word text `"a b c d"` becomes
the two-line chunk `"a b\nc d"` with exactly one newline, and the two-word
text `"a b"` stays unchanged. -/
theorem create_dynamic_word_chunks_newline_witness :
    countNl "a b\nc d".data ≤ 1 ∧
    countNl (split_into_two_lines "a b c d".data) = 1 ∧
    split_into_two_lines "a b".data = "a b".data :=
  ⟨create_dynamic_word_chunks_newline.1 "a b c d".data 7 "a b\nc d".data
      (by decide),
    create_dynamic_word_chunks_newline.2.1 "a b c d".data (by decide),
    create_dynamic_word_chunks_newline.2.2 "a b".data (by decide)⟩

/-!
## `create_text_chunks` (lines 399-423)
-/

/-- The sentence-separator class of `re.split(r'[.!?]+', text)`. -/
def isPunct (c : Char) : Bool := c = '.' || c = '!' || c = '?'

mutual

/-- `re.split(r'[.!?]+', text)`: accumulate the current piece until a
separator char. -/
def splitSentAux : List Char → List Char → List (List Char)
  | [], cur => [cur.reverse]
  | c :: cs, cur =>
    if isPunct c then cur.reverse :: skipPunct cs else splitSentAux cs (c :: cur)

/-- Skip the rest of a `[.!?]+` separator run, then resume piece collection. -/
def skipPunct : List Char → List (List Char)
  | [] => [[]]
  | c :: cs => if isPunct c then skipPunct cs else splitSentAux cs [c]

end

/-- `re.split(r'[.!?]+', text)`. -/
def reSplitPunct (text : List Char) : List (List Char) := splitSentAux text []

/-- Python `str.strip()`. -/
def pyStrip (l : List Char) : List Char :=
  ((l.dropWhile Char.isWhitespace).reverse.dropWhile Char.isWhitespace).reverse

/-- The sentence-accumulation loop of `create_text_chunks`: arguments are the
remaining sentences, `current_chunk` and `chunks`. -/
def ctcLoop (maxC : Nat) : List (List Char) → List Char → List (List Char) →
    List (List Char)
  | [], cur, chunks => if cur = [] then chunks else chunks ++ [pyStrip cur]
  | s :: ss, cur, chunks =>
    if pyStrip s = [] then ctcLoop maxC ss cur chunks
    else if (cur ++ pyStrip s).length ≤ maxC then
      ctcLoop maxC ss (cur ++ pyStrip s ++ ". ".data) chunks
    else
      ctcLoop maxC ss (pyStrip s ++ ". ".data)
        (if cur = [] then chunks else chunks ++ [pyStrip cur])

/-- `create_text_chunks(text, max_chars_per_chunk=250)`: a text no longer
than the limit is returned unchanged as the single chunk; otherwise it is
split into sentences on `[.!?]+` runs and re-accumulated greedily. -/
def create_text_chunks (text : List Char) (maxC : Nat) : List (List Char) :=
  if text.length ≤ maxC then [text]
  else ctcLoop maxC (reSplitPunct text) [] []

/-- C9: a text whose length is at most `max_chars_per_chunk` is returned
unchanged as a one-element chunk list — no sentence splitting and no
punctuation normalization; in particular the empty string yields `[""]`,
not `[]`. -/
theorem create_text_chunks_short (text : List Char) (maxC : Nat)
    (h : text.length ≤ maxC) : create_text_chunks text maxC = [text] := by
  unfold create_text_chunks
  rw [if_pos h]

/-- Witness for C9 at the empty string with the default limit 250. -/
theorem create_text_chunks_short_witness :
    create_text_chunks "".data 250 = ["".data] :=
  create_text_chunks_short "".data 250 (by decide)

/-- C5 counterexample: `create_text_chunks("")` returns the one-element list
`[""]`, not the empty sequence of chunks the claim asserts. -/
theorem create_text_chunks_empty_cex :
    create_text_chunks "".data 250 = [[]] ∧ ([[]] : List (List Char)) ≠ [] := by
  decide

/-- C5 amended: on empty input the wrapper does return an empty line
sequence without raising, but the chunker returns the one-element list
containing the empty string (its short-input branch), not an empty list. -/
theorem empty_input_behavior :
    (∀ maxC : Nat, create_text_chunks [] maxC = [[]]) ∧
    (∀ (f : List Char → Nat) (maxW : Nat), wrap_text_to_fit [] f maxW = []) := by
  constructor
  · intro maxC
    unfold create_text_chunks
    rw [if_pos (by simp)]
  · intro f maxW
    rfl

/-!
## `draw_clean_text` (lines 186-217)

`textwrap.wrap` (Python standard library) and the PIL font metrics are
external collaborators, supplied as parameters.
-/

/-- Abstract PIL font metrics: `utils/fonts.py` derives a `(width, height)`
pair for a string from `font.getbbox`. -/
structure FontMeasure where
  width : List Char → ℚ
  height : List Char → ℚ

/-- `utils/fonts.py: getsize(font, text) = (width, height)`. -/
def getsize (font : FontMeasure) (t : List Char) : ℚ × ℚ :=
  (font.width t, font.height t)

/-- `utils/fonts.py: getheight(font, text)` — the second `getsize` field. -/
def getheight (font : FontMeasure) (t : List Char) : ℚ :=
  (getsize font t).2

/-- The per-line loop of `draw_clean_text`: records `(line, x, y)` of each
main `draw.text` call; `x = (image_width - line_width) / 2`, and `y` advances
by `line_height + padding`. -/
def drawLinesPos (font : FontMeasure) (padding W : ℚ) :
    ℚ → List (List Char) → List (List Char × ℚ × ℚ)
  | _, [] => []
  | y, l :: ls =>
    (l, (W - (getsize font l).1) / 2, y) ::
      drawLinesPos font padding W (y + (getsize font l).2 + padding) ls

/-- `draw_clean_text(image, text, font, text_color, padding, wrap=50)`:
wraps `text` via `textwrap.wrap(text, wrap)` (stdlib, passed as `wrapFn`),
computes `total_height = (font_height + padding) * len(lines)` with
`font_height = getheight(font, text)`, starts at
`y = (image_height - total_height) / 2` and centers each line horizontally. -/
def draw_clean_text (wrapFn : List Char → Nat → List (List Char))
    (text : List Char) (font : FontMeasure) (padding : ℚ) (wrap : Nat)
    (W H : ℚ) : List (List Char × ℚ × ℚ) :=
  drawLinesPos font padding W
    ((H - (getheight font text + padding) * ((wrapFn text wrap).length : ℚ)) / 2)
    (wrapFn text wrap)

theorem drawLinesPos_x (font : FontMeasure) (padding W : ℚ) :
    ∀ lines y, ∀ p ∈ drawLinesPos font padding W y lines,
      p.2.1 = (W - font.width p.1) / 2 := by
  intro lines
  induction lines with
  | nil => intro y p hp; simp [drawLinesPos] at hp
  | cons l ls ih =>
    intro y p hp
    rcases List.mem_cons.mp hp with hp' | hp'
    · subst hp'; rfl
    · exact ih _ p hp'

/-- C8: every line drawn by `draw_clean_text` on a `W×H` canvas has
`x = (W - measured_width(line)) / 2`, and the first drawn line's
`y = (H - line_count * (font_height + padding)) / 2`. -/
theorem draw_clean_text_centered (wrapFn : List Char → Nat → List (List Char))
    (text : List Char) (font : FontMeasure) (padding : ℚ) (wrap : Nat)
    (W H : ℚ) :
    (∀ p ∈ draw_clean_text wrapFn text font padding wrap W H,
      p.2.1 = (W - font.width p.1) / 2) ∧
    (∀ p, (draw_clean_text wrapFn text font padding wrap W H).head? = some p →
      p.2.2 = (H - ((wrapFn text wrap).length : ℚ) *
        (getheight font text + padding)) / 2) := by
  constructor
  · intro p hp
    exact drawLinesPos_x font padding W (wrapFn text wrap) _ p hp
  · intro p hp
    unfold draw_clean_text at hp
    rcases hlines : wrapFn text wrap with _ | ⟨l, ls⟩
    · rw [hlines] at hp
      simp [drawLinesPos] at hp
    · rw [hlines] at hp
      have hp' := Option.some_injective _ (by simpa [drawLinesPos] using hp)
      rw [← hp']
      simp only [List.length_cons]
      push_cast
      ring

/-- A deterministic demo font: width 10 per character, height 20. -/
def demoFont : FontMeasure :=
  ⟨fun l => (10 * l.length : ℚ), fun _ => (20 : ℚ)⟩

/-- Witness for C8, Scenario D: a single `"Hello"` line on a 1080×1920
canvas is drawn at `x = (1080 - measured_width("Hello")) / 2 = 515`. -/
theorem draw_clean_text_centered_witness :
    (515 : ℚ) = (1080 - demoFont.width "Hello".data) / 2 ∧
    (940 : ℚ) = (1920 - (((fun (t : List Char) (_ : Nat) => [t])
      "Hello".data 25).length : ℚ) *
      (getheight demoFont "Hello".data + 20)) / 2 := by
  constructor
  · have h := (draw_clean_text_centered (fun t _ => [t]) "Hello".data demoFont
      20 25 1080 1920).1 ("Hello".data, 515, 940) (by
        norm_num [draw_clean_text, drawLinesPos, getsize, getheight, demoFont])
    exact h
  · have h := (draw_clean_text_centered (fun t _ => [t]) "Hello".data demoFont
      20 25 1080 1920).2 ("Hello".data, 515, 940) (by
        norm_num [draw_clean_text, drawLinesPos, getsize, getheight, demoFont])
    exact h

/-!
## The Image Renderer's post-wrap font-shrink loop (spec §4.2)

Modelled from the spec: `render_chunks_to_images` is imported by `main.py`
but its body is not among the provided source files; per the spec, after
wrapping at the current font size, if any produced line still exceeds
`max_px`, the font size is reduced by a fixed step and the text re-wrapped,
repeating until all lines fit or a minimum font-size floor is reached, at
which point the best-effort wrap is accepted.
-/

/-- Modelled from the spec: "all lines fit within `max_px`" at a font size.
`widthAt s l` is the measured pixel width of line `l` at font size `s`. -/
def allLinesFit (widthAt : Nat → List Char → Nat) (maxPx size : Nat)
    (lines : List (List Char)) : Bool :=
  lines.all (fun l => widthAt size l ≤ maxPx)

/-- Modelled from the spec: one fuelled unrolling of the shrink loop.
`wrapAt s` is the wrapped line set of the text at font size `s`. -/
def shrinkLoopAux (wrapAt : Nat → List (List Char))
    (widthAt : Nat → List Char → Nat) (maxPx floor step : Nat) :
    Nat → Nat → Option (Nat × List (List Char))
  | 0, _ => none
  | fuel + 1, size =>
    if allLinesFit widthAt maxPx size (wrapAt size) then some (size, wrapAt size)
    else if size ≤ floor then some (size, wrapAt size)
    else shrinkLoopAux wrapAt widthAt maxPx floor step fuel (size - step)

/-- Modelled from the spec: the renderer's shrink loop starting from the base
font size; `baseSize + 1` unrollings always suffice (see the theorem). -/
def render_shrink_loop (wrapAt : Nat → List (List Char))
    (widthAt : Nat → List Char → Nat) (maxPx floor step baseSize : Nat) :
    Option (Nat × List (List Char)) :=
  shrinkLoopAux wrapAt widthAt maxPx floor step (baseSize + 1) baseSize

theorem shrinkLoopAux_terminates (wrapAt : Nat → List (List Char))
    (widthAt : Nat → List Char → Nat) (maxPx floor step : Nat)
    (hstep : 1 ≤ step) :
    ∀ fuel size, size + 1 ≤ fuel →
      ∃ s, shrinkLoopAux wrapAt widthAt maxPx floor step fuel size =
        some (s, wrapAt s) ∧
        (allLinesFit widthAt maxPx s (wrapAt s) = true ∨ s ≤ floor) := by
  intro fuel
  induction fuel with
  | zero => intro size hle; omega
  | succ fuel ih =>
    intro size hle
    show ∃ s, (if allLinesFit widthAt maxPx size (wrapAt size) then
        some (size, wrapAt size)
      else if size ≤ floor then some (size, wrapAt size)
      else shrinkLoopAux wrapAt widthAt maxPx floor step fuel (size - step)) =
        some (s, wrapAt s) ∧ _
    by_cases hfit : allLinesFit widthAt maxPx size (wrapAt size)
    · exact ⟨size, by rw [if_pos hfit], Or.inl hfit⟩
    · rw [if_neg hfit]
      by_cases hfloor : size ≤ floor
      · exact ⟨size, by rw [if_pos hfloor], Or.inr hfloor⟩
      · rw [if_neg hfloor]
        exact ih (size - step) (by omega)

/-- C4: the post-wrap font-shrink loop terminates for every input (the floor
guarantees it within `baseSize + 1` iterations) and returns the wrap at the
final font size, which either fits entirely within `max_px` or — when the
floor was reached without success — is accepted as the best-effort,
possibly overflowing wrap instead of looping forever or aborting. -/
theorem render_shrink_loop_terminates (wrapAt : Nat → List (List Char))
    (widthAt : Nat → List Char → Nat) (maxPx floor step baseSize : Nat)
    (hstep : 1 ≤ step) :
    ∃ s, render_shrink_loop wrapAt widthAt maxPx floor step baseSize =
      some (s, wrapAt s) ∧
      (allLinesFit widthAt maxPx s (wrapAt s) = true ∨ s ≤ floor) :=
  shrinkLoopAux_terminates wrapAt widthAt maxPx floor step hstep
    (baseSize + 1) baseSize (by omega)

/-- Witness for C4 with the spec's example parameters (step 2pt, floor 14pt,
a 5-character line that cannot fit 10px at any size): the loop terminates
and accepts the best-effort wrap at the floor. -/
theorem render_shrink_loop_terminates_witness :
    (1 : Nat) ≤ 2 ∧
    ∃ s, render_shrink_loop (fun _ => ["hello".data])
        (fun sz l => sz * l.length) 10 14 2 70 = some (s, ["hello".data]) ∧
      (allLinesFit (fun sz l => sz * l.length) 10 s ["hello".data] = true ∨
        s ≤ 14) :=
  ⟨by decide, render_shrink_loop_terminates (fun _ => ["hello".data])
    (fun sz l => sz * l.length) 10 14 2 70 (by decide)⟩

end TextImageGen
